import Mathlib

/-!
Shallow embedding of `src/src/lib.rs` (crate `similique`): the `CMinHash`
struct and its methods `compute`, `apply_permutation`, `circulant_shift`,
together with a model of the `StreamingMinHash` component that the design
document describes but that is absent from `src/`.

Modelling conventions:
* `usize` values are modelled as `Nat`; `usize::MAX` on the 64-bit platform is
  `usizeMAX = 2 ^ 64 - 1`.
* Rust indexing `data[i]` / `pi_shifted[i]` panics when out of bounds; panics
  are modelled by returning `none`, so a method that can panic returns an
  `Option`.  `circulant_shift` never indexes out of bounds (its target index is
  reduced `% d`), so it stays total.
* The index arithmetic `(i + shift) % d` of `circulant_shift` exists in two
  models.  `circulant_shift` idealizes the `usize` sum `i + shift` on unbounded
  `Nat`, which is adequate whenever `i + shift < 2 ^ 64` — in particular for
  every shift `compute` itself reaches in any execution.  `circulant_shift_wrap`
  models the release-build wrap of the `usize` sum at `2 ^ 64` faithfully (a
  debug build panics on that overflow instead); the two models provably
  coincide whenever `shift + len(pi) ≤ 2 ^ 64`
  (`circulant_shift_wrap_eq_of_no_wrap`), and diverge at shifts near
  `usize::MAX`.
-/

def usizeMAX : Nat := 2 ^ 64 - 1

/-- The modulus `2 ^ 64` of wrapping 64-bit / `usize` arithmetic. -/
def U64 : Nat := 2 ^ 64

/-- The maximum unsigned 64-bit value (also the "unseen" sentinel of the
StreamingMinHash signature, §4.1 of the design document). -/
def u64MAX : Nat := 2 ^ 64 - 1

structure CMinHash where
  sigma : List Nat
  pi : List Nat
  k : Nat

/-- `CMinHash::new(sigma, pi, k)`: stores the two permutations and the target
signature length; no computation at construction time. -/
def CMinHash.new (sigma pi : List Nat) (k : Nat) : CMinHash :=
  ⟨sigma, pi, k⟩

/-- Loop of `apply_permutation`: `for (i, &position) in permutation.iter().enumerate()`,
writing `data[i]` into `permuted_data[position]` when `position < data.len()`.
The read `data[i]` panics (modelled `none`) when `i >= data.len()`. -/
def applyPermutationGo (data : List Bool) :
    List Nat → Nat → List Bool → Option (List Bool)
  | [], _, acc => some acc
  | position :: rest, i, acc =>
    if position < data.length then
      match data[i]? with
      | some v => applyPermutationGo data rest (i + 1) (acc.set position v)
      | none => none
    else
      applyPermutationGo data rest (i + 1) acc

/-- `CMinHash::apply_permutation(&self, data, permutation)`: scatter `data`
through `permutation` into a fresh all-`false` vector of `data`'s length. -/
def CMinHash.apply_permutation (_self : CMinHash) (data : List Bool)
    (permutation : List Nat) : Option (List Bool) :=
  applyPermutationGo data permutation 0 (List.replicate data.length false)

/-- Loop of `circulant_shift`: `for (i, &value) in self.pi.iter().enumerate()`,
writing `value` into `shifted_pi[(i + shift) % d]`.  When `d = 0` the loop body
is never reached, so the `% d` never divides by zero.  The `usize` sum
`i + shift` is idealized on unbounded `Nat` here; `circulantShiftGoWrap` below
models its wrap at `2 ^ 64`. -/
def circulantShiftGo (d shift : Nat) :
    List Nat → Nat → List Nat → List Nat
  | [], _, acc => acc
  | value :: rest, i, acc =>
    circulantShiftGo d shift rest (i + 1) (acc.set ((i + shift) % d) value)

/-- `CMinHash::circulant_shift(&self, shift)`: scatter `self.pi`'s values into a
fresh zero vector of length `d = self.pi.len()`, value at source index `i`
landing at `(i + shift) % d`. -/
def CMinHash.circulant_shift (self : CMinHash) (shift : Nat) : List Nat :=
  circulantShiftGo self.pi.length shift self.pi 0
    (List.replicate self.pi.length 0)

/-- Loop of `circulant_shift` with the `usize` arithmetic modelled faithfully:
the source's `i + shift` is a `usize` addition, which in a release build wraps
at `2 ^ 64` before the reduction `% d` (a debug build panics on the overflow).
It agrees with the unwrapped `circulantShiftGo` whenever every `i + shift`
stays below `2 ^ 64` (`circulantShiftGoWrap_eq_of_no_wrap`). -/
def circulantShiftGoWrap (d shift : Nat) :
    List Nat → Nat → List Nat → List Nat
  | [], _, acc => acc
  | value :: rest, i, acc =>
    circulantShiftGoWrap d shift rest (i + 1)
      (acc.set ((i + shift) % U64 % d) value)

/-- Method `CMinHash::circulant_shift(&self, shift)` with the wrapping `usize`
addition of release builds modelled. -/
def CMinHash.circulant_shift_wrap (self : CMinHash) (shift : Nat) : List Nat :=
  circulantShiftGoWrap self.pi.length shift self.pi 0
    (List.replicate self.pi.length 0)

/-- The `filter_map` of `compute`'s inner loop: the values `pi_shifted[i]` at
the positions `i` where `data_permuted[i]` is `true`, in order.  The read
`pi_shifted[i]` panics (modelled `none`) when `i >= pi_shifted.len()`. -/
def slotValuesGo (piShifted : List Nat) :
    List Bool → Nat → Option (List Nat)
  | [], _ => some []
  | value :: rest, i =>
    if value then
      match piShifted[i]? with
      | some v => Option.map (fun vs => v :: vs) (slotValuesGo piShifted rest (i + 1))
      | none => none
    else
      slotValuesGo piShifted rest (i + 1)

/-- `Iterator::min` over a list of `usize` values: `none` on the empty list,
otherwise the least element. -/
def minOpt : List Nat → Option Nat
  | [] => none
  | v :: rest =>
    match minOpt rest with
    | none => some v
    | some m => some (min v m)

/-- One iteration of `compute`'s `for k_index in 0..self.k` loop:
`data_permuted.iter().enumerate().filter_map(...).min().unwrap_or(usize::MAX)`
against `self.circulant_shift(k_index)`. -/
def computeSlot (self : CMinHash) (dataPermuted : List Bool) (kIndex : Nat) :
    Option Nat :=
  match slotValuesGo (self.circulant_shift kIndex) dataPermuted 0 with
  | none => none
  | some vals => some ((minOpt vals).getD usizeMAX)

/-- The `for k_index in 0..self.k` loop of `compute`, pushing one hash value per
iteration; `fuel` counts the remaining iterations. -/
def computeGo (self : CMinHash) (dataPermuted : List Bool) :
    Nat → Nat → Option (List Nat)
  | _, 0 => some []
  | kIndex, fuel + 1 =>
    match computeSlot self dataPermuted kIndex,
        computeGo self dataPermuted (kIndex + 1) fuel with
    | some v, some rest => some (v :: rest)
    | _, _ => none

/-- `CMinHash::compute(&self, data)`: permute `data` by `self.sigma`, then for
each `k_index < self.k` take the minimum shifted-`pi` value over the `true`
positions (or `usize::MAX` when none is `true`). -/
def CMinHash.compute (self : CMinHash) (data : List Bool) : Option (List Nat) :=
  match self.apply_permutation data self.sigma with
  | some dataPermuted => computeGo self dataPermuted 0 self.k
  | none => none

/-! ### StreamingMinHash (component A), modelled from the spec

The design document's §4.1 describes a `StreamingMinHash` component whose
source is not under `src/` (only `CMinHash` is); the definitions below are
modelled from the spec's words. -/

/-- Modelled from the spec: `new(num_perm)` initializes a signature of length
`num_perm`, every component set to the maximum unsigned 64-bit value. -/
def StreamingMinHash.new (numPerm : Nat) : List Nat :=
  List.replicate numPerm u64MAX

/-- Modelled from the spec: `update(item)` computes `hash = H(item)` (the
fixed-seed 64-bit hash is the uninterpreted parameter `hash`) and, for each
slot `i` in `[0, num_perm)`, sets
`signature[i] = min(signature[i], (hash + i) mod 2^64)`. -/
def StreamingMinHash.update (hash : Nat → Nat) (signature : List Nat)
    (item : Nat) : List Nat :=
  (List.range signature.length).map fun i =>
    min (signature.getD i 0) ((hash item + i) % U64)

/-- Modelled from the spec: the signature obtained from `new(num_perm)` by a
finite sequence of `update` calls, one per element of `items`. -/
def StreamingMinHash.run (hash : Nat → Nat) (numPerm : Nat)
    (items : List Nat) : List Nat :=
  items.foldl (StreamingMinHash.update hash) (StreamingMinHash.new numPerm)

/-! ### Lemmas about the `apply_permutation` loop -/

theorem applyPermutationGo_length (data : List Bool) :
    ∀ (perm : List Nat) (i : Nat) (acc r : List Bool),
      applyPermutationGo data perm i acc = some r → r.length = acc.length := by
  intro perm
  induction perm with
  | nil =>
    intro i acc r h
    simp only [applyPermutationGo, Option.some.injEq] at h
    simp [← h]
  | cons position rest ih =>
    intro i acc r h
    simp only [applyPermutationGo] at h
    by_cases hp : position < data.length
    · rw [if_pos hp] at h
      cases hd : data[i]? with
      | none => rw [hd] at h; exact absurd h (by simp)
      | some v =>
        rw [hd] at h
        have := ih (i + 1) (acc.set position v) r h
        simpa [List.length_set] using this
    · rw [if_neg hp] at h
      exact ih (i + 1) acc r h

theorem applyPermutationGo_total (data : List Bool) :
    ∀ (perm : List Nat) (i : Nat) (acc : List Bool),
      i + perm.length ≤ data.length →
      ∃ r, applyPermutationGo data perm i acc = some r := by
  intro perm
  induction perm with
  | nil => intro i acc _; exact ⟨acc, rfl⟩
  | cons position rest ih =>
    intro i acc hle
    simp only [List.length_cons] at hle
    have hi : i < data.length := by omega
    simp only [applyPermutationGo]
    by_cases hp : position < data.length
    · rw [if_pos hp, List.getElem?_eq_getElem hi]
      exact ih (i + 1) (acc.set position data[i]) (by omega)
    · rw [if_neg hp]
      exact ih (i + 1) acc (by omega)

theorem applyPermutationGo_getElem?_untouched (data : List Bool) (p : Nat) :
    ∀ (perm : List Nat) (i : Nat) (acc r : List Bool),
      applyPermutationGo data perm i acc = some r →
      (∀ idx (h : idx < perm.length), perm.get ⟨idx, h⟩ ≠ p) →
      r[p]? = acc[p]? := by
  intro perm
  induction perm with
  | nil =>
    intro i acc r h _
    simp only [applyPermutationGo, Option.some.injEq] at h
    rw [← h]
  | cons position rest ih =>
    intro i acc r h hne
    have hpos : position ≠ p := hne 0 (by simp)
    simp only [applyPermutationGo] at h
    by_cases hp : position < data.length
    · rw [if_pos hp] at h
      cases hd : data[i]? with
      | none => rw [hd] at h; exact absurd h (by simp)
      | some v =>
        rw [hd] at h
        have hrest : ∀ idx (hh : idx < rest.length), rest.get ⟨idx, hh⟩ ≠ p := by
          intro idx hh
          exact hne (idx + 1) (by simpa using Nat.succ_lt_succ hh)
        have := ih (i + 1) (acc.set position v) r h hrest
        rw [this, List.getElem?_set_ne hpos]
    · rw [if_neg hp] at h
      exact ih (i + 1) acc r h fun idx hh =>
        hne (idx + 1) (by simpa using Nat.succ_lt_succ hh)

theorem applyPermutationGo_getElem?_write (data : List Bool) :
    ∀ (perm : List Nat) (i : Nat) (acc r : List Bool),
      applyPermutationGo data perm i acc = some r →
      data.length ≤ acc.length →
      ∀ idx (h : idx < perm.length), perm.get ⟨idx, h⟩ < data.length →
      (∀ idx' (h' : idx' < perm.length), idx < idx' →
        perm.get ⟨idx', h'⟩ ≠ perm.get ⟨idx, h⟩) →
      r[perm.get ⟨idx, h⟩]? = data[i + idx]? := by
  intro perm
  induction perm with
  | nil => intro i acc r _ _ idx h; exact absurd h (by simp)
  | cons position rest ih =>
    intro i acc r h hlen idx hidx hlt hlater
    simp only [applyPermutationGo] at h
    cases idx with
    | zero =>
      have hp : position < data.length := hlt
      rw [if_pos hp] at h
      cases hd : data[i]? with
      | none => rw [hd] at h; exact absurd h (by simp)
      | some v =>
        rw [hd] at h
        have hrest : ∀ j (hh : j < rest.length), rest.get ⟨j, hh⟩ ≠ position := by
          intro j hh
          exact hlater (j + 1) (by simpa using Nat.succ_lt_succ hh) (Nat.succ_pos j)
        have huntouched :=
          applyPermutationGo_getElem?_untouched data position rest (i + 1)
            (acc.set position v) r h hrest
        have hset : (acc.set position v)[position]? = some v :=
          List.getElem?_set_self (by omega)
        simpa [hd] using huntouched.trans hset
    | succ j =>
      by_cases hp : position < data.length
      · rw [if_pos hp] at h
        cases hd : data[i]? with
        | none => rw [hd] at h; exact absurd h (by simp)
        | some v =>
          rw [hd] at h
          have := ih (i + 1) (acc.set position v) r h
            (by simpa [List.length_set] using hlen) j
            (by simpa using Nat.lt_of_succ_lt_succ hidx)
            (by simpa using hlt)
            (fun idx' h' hgt =>
              hlater (idx' + 1) (by simpa using Nat.succ_lt_succ h')
                (Nat.succ_lt_succ hgt))
          simpa [Nat.add_assoc, Nat.add_comm 1 j] using this
      · rw [if_neg hp] at h
        have := ih (i + 1) acc r h hlen j
          (by simpa using Nat.lt_of_succ_lt_succ hidx)
          (by simpa using hlt)
          (fun idx' h' hgt =>
            hlater (idx' + 1) (by simpa using Nat.succ_lt_succ h')
              (Nat.succ_lt_succ hgt))
        simpa [Nat.add_assoc, Nat.add_comm 1 j] using this

/-! ### `apply_permutation` corollaries -/

theorem apply_permutation_length (c : CMinHash) (data : List Bool)
    (perm : List Nat) (r : List Bool)
    (h : c.apply_permutation data perm = some r) : r.length = data.length := by
  have := applyPermutationGo_length data perm 0
    (List.replicate data.length false) r h
  simpa using this

theorem apply_permutation_total (c : CMinHash) (data : List Bool)
    (perm : List Nat) (hle : perm.length ≤ data.length) :
    ∃ r, c.apply_permutation data perm = some r := by
  exact applyPermutationGo_total data perm 0
    (List.replicate data.length false) (by omega)

theorem apply_permutation_getElem?_untouched (c : CMinHash) (data : List Bool)
    (perm : List Nat) (r : List Bool) (p : Nat)
    (h : c.apply_permutation data perm = some r) (hp : p < data.length)
    (hne : ∀ idx (hh : idx < perm.length), perm.get ⟨idx, hh⟩ ≠ p) :
    r[p]? = some false := by
  have := applyPermutationGo_getElem?_untouched data p perm 0
    (List.replicate data.length false) r h hne
  rw [this, List.getElem?_replicate, if_pos hp]

theorem apply_permutation_getElem?_write (c : CMinHash) (data : List Bool)
    (perm : List Nat) (r : List Bool)
    (h : c.apply_permutation data perm = some r)
    (idx : Nat) (hidx : idx < perm.length) (hlt : perm.get ⟨idx, hidx⟩ < data.length)
    (hnd : perm.Nodup) :
    r[perm.get ⟨idx, hidx⟩]? = data[idx]? := by
  have hinj := List.nodup_iff_injective_get.mp hnd
  have := applyPermutationGo_getElem?_write data perm 0
    (List.replicate data.length false) r h (by simp) idx hidx hlt
    (fun idx' h' hgt => by
      intro heq
      have : (⟨idx', h'⟩ : Fin perm.length) = ⟨idx, hidx⟩ := hinj heq
      have : idx' = idx := congrArg Fin.val this
      omega)
  simpa using this

/-! ### Modular-arithmetic helpers for the circulant shift -/

theorem mod_shift_inj (d shift a b : Nat) (ha : a < d) (hb : b < d)
    (h : (a + shift) % d = (b + shift) % d) : a = b := by
  have h1 : a % d = b % d :=
    Nat.ModEq.add_right_cancel' shift (show Nat.ModEq d (a + shift) (b + shift) from h)
  rwa [Nat.mod_eq_of_lt ha, Nat.mod_eq_of_lt hb] at h1

theorem mod_shift_surj (d shift j : Nat) (hj : j < d) :
    ((j + (d - shift % d)) % d + shift) % d = j := by
  have hd : 0 < d := Nat.pos_of_ne_zero (by omega)
  have hmod : shift % d < d := Nat.mod_lt _ hd
  have hdm : d * (shift / d) + shift % d = shift := Nat.div_add_mod shift d
  rw [Nat.mod_add_mod]
  have harith : j + (d - shift % d) + shift = j + d + d * (shift / d) := by omega
  rw [harith, Nat.add_mul_mod_self_left, Nat.add_mod_right, Nat.mod_eq_of_lt hj]

/-! ### Lemmas about the `circulant_shift` loop -/

theorem circulantShiftGo_length (d shift : Nat) :
    ∀ (l : List Nat) (i : Nat) (acc : List Nat),
      (circulantShiftGo d shift l i acc).length = acc.length := by
  intro l
  induction l with
  | nil => intro i acc; rfl
  | cons value rest ih =>
    intro i acc
    simp only [circulantShiftGo]
    rw [ih, List.length_set]

theorem circulantShiftGo_getElem?_untouched (d shift p : Nat) :
    ∀ (l : List Nat) (i : Nat) (acc : List Nat),
      (∀ idx, idx < l.length → (i + idx + shift) % d ≠ p) →
      (circulantShiftGo d shift l i acc)[p]? = acc[p]? := by
  intro l
  induction l with
  | nil => intro i acc _; rfl
  | cons value rest ih =>
    intro i acc hne
    simp only [circulantShiftGo]
    have hhead : (i + shift) % d ≠ p := by
      have := hne 0 (by simp)
      simpa using this
    rw [ih (i + 1) _ (fun idx hidx => by
      have := hne (idx + 1) (by simpa using Nat.succ_lt_succ hidx)
      simpa [Nat.add_assoc, Nat.add_comm 1 idx] using this)]
    exact List.getElem?_set_ne hhead

theorem circulantShiftGo_getElem?_write (d shift : Nat) (hd : 0 < d) :
    ∀ (l : List Nat) (i : Nat) (acc : List Nat),
      d ≤ acc.length →
      ∀ idx (h : idx < l.length),
      (∀ idx', idx' < l.length → idx < idx' →
        (i + idx' + shift) % d ≠ (i + idx + shift) % d) →
      (circulantShiftGo d shift l i acc)[(i + idx + shift) % d]? = l[idx]? := by
  intro l
  induction l with
  | nil => intro i acc _ idx h; exact absurd h (by simp)
  | cons value rest ih =>
    intro i acc hlen idx hidx hlater
    cases idx with
    | zero =>
      simp only [circulantShiftGo]
      have hrest : ∀ j, j < rest.length →
          ((i + 1) + j + shift) % d ≠ (i + 0 + shift) % d := by
        intro j hj
        have := hlater (j + 1) (by simpa using Nat.succ_lt_succ hj) (Nat.succ_pos j)
        simpa [Nat.add_assoc, Nat.add_comm 1 j] using this
      rw [circulantShiftGo_getElem?_untouched d shift _ rest (i + 1) _ hrest]
      have hplt : (i + 0 + shift) % d < acc.length :=
        Nat.lt_of_lt_of_le (Nat.mod_lt _ hd) hlen
      simpa using List.getElem?_set_self (by simpa using hplt)
    | succ j =>
      simp only [circulantShiftGo]
      have := ih (i + 1) (acc.set ((i + shift) % d) value)
        (by rw [List.length_set]; exact hlen) j
        (by simpa using Nat.lt_of_succ_lt_succ hidx)
        (fun idx' h' hgt => by
          have := hlater (idx' + 1) (by simpa using Nat.succ_lt_succ h')
            (Nat.succ_lt_succ hgt)
          simpa [Nat.add_assoc, Nat.add_comm 1 idx', Nat.add_comm 1 j] using this)
      simpa [Nat.add_assoc, Nat.add_comm 1 j] using this

/-! ### `circulant_shift` corollaries -/

theorem circulant_shift_length (c : CMinHash) (shift : Nat) :
    (c.circulant_shift shift).length = c.pi.length := by
  unfold CMinHash.circulant_shift
  rw [circulantShiftGo_length, List.length_replicate]

theorem circulant_shift_getElem?_spec (c : CMinHash) (shift : Nat)
    (i : Nat) (h : i < c.pi.length) :
    (c.circulant_shift shift)[(i + shift) % c.pi.length]? = c.pi[i]? := by
  have hd : 0 < c.pi.length := by omega
  unfold CMinHash.circulant_shift
  have := circulantShiftGo_getElem?_write c.pi.length shift hd c.pi 0
    (List.replicate c.pi.length 0) (by simp) i h
    (fun idx' h' hgt heq => by
      have : idx' = i := mod_shift_inj c.pi.length shift idx' i h' h (by simpa using heq)
      omega)
  simpa using this

theorem circulant_shift_eq_rotate (c : CMinHash) (shift : Nat) :
    c.circulant_shift shift =
      c.pi.rotate ((c.pi.length - shift % c.pi.length) % c.pi.length) := by
  rcases Nat.eq_zero_or_pos c.pi.length with hzero | hd
  · have hpi : c.pi = [] := List.length_eq_zero.mp hzero
    have h1 : (c.circulant_shift shift).length = 0 := by
      rw [circulant_shift_length, hzero]
    rw [List.length_eq_zero.mp h1, hpi, List.rotate_nil]
  · apply List.ext_get
    · rw [circulant_shift_length, List.length_rotate]
    · intro j hjc hjr
      have hj : j < c.pi.length := by rwa [circulant_shift_length] at hjc
      have hget := List.get_rotate c.pi
        ((c.pi.length - shift % c.pi.length) % c.pi.length) ⟨j, hjr⟩
      have hi : (j + (c.pi.length - shift % c.pi.length)) % c.pi.length <
          c.pi.length := Nat.mod_lt _ hd
      have hspec := circulant_shift_getElem?_spec c shift
        ((j + (c.pi.length - shift % c.pi.length)) % c.pi.length) hi
      rw [mod_shift_surj c.pi.length shift j hj] at hspec
      have hrot : (j + (c.pi.length - shift % c.pi.length) % c.pi.length) %
          c.pi.length =
          (j + (c.pi.length - shift % c.pi.length)) % c.pi.length :=
        Nat.add_mod_mod _ _ _
      rw [List.getElem?_eq_getElem hjc, List.getElem?_eq_getElem hi] at hspec
      rw [hget]
      simp only [List.get_eq_getElem]
      have := Option.some.inj hspec
      rw [this]
      congr 1
      exact hrot.symm

theorem circulant_shift_perm (c : CMinHash) (shift : Nat) :
    (c.circulant_shift shift).Perm c.pi := by
  rw [circulant_shift_eq_rotate]
  exact List.rotate_perm _ _

theorem circulant_shift_zero (c : CMinHash) : c.circulant_shift 0 = c.pi := by
  rw [circulant_shift_eq_rotate, Nat.zero_mod, Nat.sub_zero, Nat.mod_self,
    List.rotate_zero]

theorem circulantShiftGoWrap_eq_of_no_wrap (d shift : Nat) :
    ∀ (l : List Nat) (i : Nat) (acc : List Nat),
      i + l.length + shift ≤ U64 →
      circulantShiftGoWrap d shift l i acc = circulantShiftGo d shift l i acc := by
  intro l
  induction l with
  | nil => intro i acc _; rfl
  | cons value rest ih =>
    intro i acc hle
    simp only [List.length_cons] at hle
    simp only [circulantShiftGoWrap, circulantShiftGo]
    rw [Nat.mod_eq_of_lt (show i + shift < U64 by omega)]
    exact ih (i + 1) _ (by omega)

theorem circulant_shift_wrap_eq_of_no_wrap (c : CMinHash) (shift : Nat)
    (h : shift + c.pi.length ≤ U64) :
    c.circulant_shift_wrap shift = c.circulant_shift shift := by
  unfold CMinHash.circulant_shift_wrap CMinHash.circulant_shift
  exact circulantShiftGoWrap_eq_of_no_wrap c.pi.length shift c.pi 0 _ (by omega)

/-! ### Lemmas about `compute`'s inner loop -/

theorem slotValuesGo_total (piShifted : List Nat) :
    ∀ (dp : List Bool) (i : Nat),
      i + dp.length ≤ piShifted.length →
      ∃ vals, slotValuesGo piShifted dp i = some vals := by
  intro dp
  induction dp with
  | nil => intro i _; exact ⟨[], rfl⟩
  | cons value rest ih =>
    intro i hle
    simp only [List.length_cons] at hle
    have hi : i < piShifted.length := by omega
    simp only [slotValuesGo]
    by_cases hv : value = true
    · rw [if_pos hv, List.getElem?_eq_getElem hi]
      obtain ⟨vals, hvals⟩ := ih (i + 1) (by omega)
      rw [hvals]
      exact ⟨_, rfl⟩
    · rw [if_neg hv]
      exact ih (i + 1) (by omega)

theorem slotValuesGo_mem (piShifted : List Nat) :
    ∀ (dp : List Bool) (i : Nat) (vals : List Nat),
      slotValuesGo piShifted dp i = some vals →
      ∀ v ∈ vals, ∃ j, ∃ h : j < dp.length,
        dp.get ⟨j, h⟩ = true ∧ piShifted[i + j]? = some v := by
  intro dp
  induction dp with
  | nil =>
    intro i vals h v hv
    simp only [slotValuesGo, Option.some.injEq] at h
    rw [← h] at hv
    exact absurd hv (by simp)
  | cons value rest ih =>
    intro i vals h v hv
    simp only [slotValuesGo] at h
    by_cases hval : value = true
    · rw [if_pos hval] at h
      cases hget : piShifted[i]? with
      | none => rw [hget] at h; exact absurd h (by simp)
      | some w =>
        rw [hget] at h
        cases hrec : slotValuesGo piShifted rest (i + 1) with
        | none => rw [hrec] at h; exact absurd h (by simp)
        | some vals' =>
          rw [hrec] at h
          simp only [Option.map_some', Option.some.injEq] at h
          rw [← h] at hv
          rcases List.mem_cons.mp hv with hveq | hvtail
          · refine ⟨0, by simp, hval, ?_⟩
            rw [Nat.add_zero, hget, hveq]
          · obtain ⟨j, hj, htrue, hgetj⟩ := ih (i + 1) vals' hrec v hvtail
            refine ⟨j + 1, by simpa using Nat.succ_lt_succ hj, htrue, ?_⟩
            rw [show i + (j + 1) = i + 1 + j by omega]
            exact hgetj
    · rw [if_neg hval] at h
      obtain ⟨j, hj, htrue, hgetj⟩ := ih (i + 1) vals h v hv
      refine ⟨j + 1, by simpa using Nat.succ_lt_succ hj, htrue, ?_⟩
      rw [show i + (j + 1) = i + 1 + j by omega]
      exact hgetj

theorem slotValuesGo_complete (piShifted : List Nat) :
    ∀ (dp : List Bool) (i : Nat) (vals : List Nat),
      slotValuesGo piShifted dp i = some vals →
      ∀ j (h : j < dp.length), dp.get ⟨j, h⟩ = true →
        ∃ v, piShifted[i + j]? = some v ∧ v ∈ vals := by
  intro dp
  induction dp with
  | nil => intro i vals _ j hj; exact absurd hj (by simp)
  | cons value rest ih =>
    intro i vals h j hj htrue
    simp only [slotValuesGo] at h
    by_cases hval : value = true
    · rw [if_pos hval] at h
      cases hget : piShifted[i]? with
      | none => rw [hget] at h; exact absurd h (by simp)
      | some w =>
        rw [hget] at h
        cases hrec : slotValuesGo piShifted rest (i + 1) with
        | none => rw [hrec] at h; exact absurd h (by simp)
        | some vals' =>
          rw [hrec] at h
          simp only [Option.map_some', Option.some.injEq] at h
          cases j with
          | zero =>
            refine ⟨w, ?_, ?_⟩
            · rw [Nat.add_zero]; exact hget
            · rw [← h]; exact List.mem_cons_self w vals'
          | succ j' =>
            obtain ⟨v, hv1, hv2⟩ := ih (i + 1) vals' hrec j'
              (by simpa using Nat.lt_of_succ_lt_succ hj) (by simpa using htrue)
            refine ⟨v, ?_, ?_⟩
            · rw [show i + (j' + 1) = i + 1 + j' by omega]; exact hv1
            · rw [← h]; exact List.mem_cons_of_mem w hv2
    · rw [if_neg hval] at h
      cases j with
      | zero => exact absurd htrue (by simpa using hval)
      | succ j' =>
        obtain ⟨v, hv1, hv2⟩ := ih (i + 1) vals h j'
          (by simpa using Nat.lt_of_succ_lt_succ hj) (by simpa using htrue)
        refine ⟨v, ?_, hv2⟩
        rw [show i + (j' + 1) = i + 1 + j' by omega]
        exact hv1

theorem slotValuesGo_nil_of_all_false (piShifted : List Nat) (dp : List Bool)
    (i : Nat) (vals : List Nat)
    (h : slotValuesGo piShifted dp i = some vals)
    (hfalse : ∀ j (hj : j < dp.length), dp.get ⟨j, hj⟩ = false) : vals = [] := by
  cases vals with
  | nil => rfl
  | cons v rest =>
    obtain ⟨j, hj, htrue, _⟩ := slotValuesGo_mem piShifted dp i (v :: rest) h v
      (List.mem_cons_self v rest)
    rw [hfalse j hj] at htrue
    exact absurd htrue (by simp)

/-! ### Lemmas about `minOpt` -/

theorem minOpt_eq_none (l : List Nat) : minOpt l = none ↔ l = [] := by
  cases l with
  | nil => simp [minOpt]
  | cons v rest =>
    cases h : minOpt rest <;> simp [minOpt, h]

theorem minOpt_mem : ∀ (l : List Nat) (m : Nat), minOpt l = some m → m ∈ l := by
  intro l
  induction l with
  | nil => intro m h; exact absurd h (by simp [minOpt])
  | cons v rest ih =>
    intro m h
    simp only [minOpt] at h
    cases hrec : minOpt rest with
    | none =>
      rw [hrec] at h
      rw [← Option.some.inj h]
      exact List.mem_cons_self v rest
    | some m' =>
      rw [hrec] at h
      have hm : m = min v m' := (Option.some.inj h).symm
      rcases Nat.le_total v m' with hle | hle
      · have hmin : min v m' = v := by omega
        rw [hm, hmin]
        exact List.mem_cons_self v rest
      · have hmin : min v m' = m' := by omega
        rw [hm, hmin]
        exact List.mem_cons_of_mem v (ih m' hrec)

theorem minOpt_le : ∀ (l : List Nat) (m : Nat), minOpt l = some m →
    ∀ x ∈ l, m ≤ x := by
  intro l
  induction l with
  | nil => intro m h; exact absurd h (by simp [minOpt])
  | cons v rest ih =>
    intro m h x hx
    simp only [minOpt] at h
    cases hrec : minOpt rest with
    | none =>
      rw [hrec] at h
      have hrest : rest = [] := (minOpt_eq_none rest).mp hrec
      rcases List.mem_cons.mp hx with hxv | hxrest
      · rw [← Option.some.inj h, hxv]
      · rw [hrest] at hxrest; exact absurd hxrest (by simp)
    | some m' =>
      rw [hrec] at h
      have hm : m = min v m' := (Option.some.inj h).symm
      rcases List.mem_cons.mp hx with hxv | hxrest
      · rw [hxv] at *; omega
      · have := ih m' hrec x hxrest; omega

theorem minOpt_isSome (l : List Nat) (h : l ≠ []) : ∃ m, minOpt l = some m := by
  cases hm : minOpt l with
  | none => exact absurd ((minOpt_eq_none l).mp hm) h
  | some m => exact ⟨m, rfl⟩

theorem minOpt_perm (l1 l2 : List Nat) (hp : l1.Perm l2) :
    minOpt l1 = minOpt l2 := by
  cases h1 : minOpt l1 with
  | none =>
    have : l1 = [] := (minOpt_eq_none l1).mp h1
    subst this
    have : l2 = [] := hp.symm.eq_nil
    subst this
    rfl
  | some m1 =>
    cases h2 : minOpt l2 with
    | none =>
      have : l2 = [] := (minOpt_eq_none l2).mp h2
      subst this
      have : l1 = [] := hp.eq_nil
      subst this
      exact absurd h1 (by simp [minOpt])
    | some m2 =>
      have hle1 : m1 ≤ m2 :=
        minOpt_le l1 m1 h1 m2 (hp.mem_iff.mpr (minOpt_mem l2 m2 h2))
      have hle2 : m2 ≤ m1 :=
        minOpt_le l2 m2 h2 m1 (hp.mem_iff.mp (minOpt_mem l1 m1 h1))
      rw [Nat.le_antisymm hle1 hle2]

/-! ### Lemmas about `computeSlot`, `computeGo` and `compute` -/

theorem computeSlot_total (self : CMinHash) (dp : List Bool)
    (hlen : dp.length ≤ self.pi.length) (j : Nat) :
    ∃ v, computeSlot self dp j = some v := by
  obtain ⟨vals, hvals⟩ := slotValuesGo_total (self.circulant_shift j) dp 0
    (by rw [circulant_shift_length]; omega)
  unfold computeSlot
  rw [hvals]
  exact ⟨_, rfl⟩

theorem computeSlot_inv (self : CMinHash) (dp : List Bool) (kIndex m : Nat)
    (h : computeSlot self dp kIndex = some m) :
    ∃ vals, slotValuesGo (self.circulant_shift kIndex) dp 0 = some vals ∧
      m = (minOpt vals).getD usizeMAX := by
  unfold computeSlot at h
  cases hvals : slotValuesGo (self.circulant_shift kIndex) dp 0 with
  | none => rw [hvals] at h; cases h
  | some vals =>
    rw [hvals] at h
    exact ⟨vals, rfl, (Option.some.inj h).symm⟩

theorem computeGo_total (self : CMinHash) (dp : List Bool)
    (htot : ∀ j, ∃ v, computeSlot self dp j = some v) :
    ∀ (fuel kIndex : Nat),
      ∃ hs, computeGo self dp kIndex fuel = some hs ∧ hs.length = fuel ∧
        ∀ idx, idx < fuel → hs[idx]? = computeSlot self dp (kIndex + idx) := by
  intro fuel
  induction fuel with
  | zero => intro kIndex; exact ⟨[], rfl, rfl, fun idx h => absurd h (by omega)⟩
  | succ fuel ih =>
    intro kIndex
    obtain ⟨v, hv⟩ := htot kIndex
    obtain ⟨rest, hrest, hlen, hget⟩ := ih (kIndex + 1)
    refine ⟨v :: rest, ?_, by simp [hlen], ?_⟩
    · simp only [computeGo]
      rw [hv, hrest]
    · intro idx hidx
      cases idx with
      | zero => simp [hv]
      | succ idx' =>
        have := hget idx' (by omega)
        rw [show kIndex + (idx' + 1) = kIndex + 1 + idx' by omega]
        simpa using this

theorem computeGo_mem (self : CMinHash) (dp : List Bool) :
    ∀ (fuel kIndex : Nat) (hs : List Nat),
      computeGo self dp kIndex fuel = some hs →
      ∀ v ∈ hs, ∃ j, computeSlot self dp j = some v := by
  intro fuel
  induction fuel with
  | zero =>
    intro kIndex hs h v hv
    simp only [computeGo, Option.some.injEq] at h
    rw [← h] at hv
    exact absurd hv (by simp)
  | succ fuel ih =>
    intro kIndex hs h v hv
    simp only [computeGo] at h
    cases hslot : computeSlot self dp kIndex with
    | none => rw [hslot] at h; cases h
    | some w =>
      rw [hslot] at h
      cases hrec : computeGo self dp (kIndex + 1) fuel with
      | none => rw [hrec] at h; cases h
      | some rest =>
        rw [hrec] at h
        rw [← Option.some.inj h] at hv
        rcases List.mem_cons.mp hv with hveq | hvtail
        · exact ⟨kIndex, by rw [hslot, hveq]⟩
        · exact ih (kIndex + 1) rest hrec v hvtail

theorem compute_inv (self : CMinHash) (data : List Bool) (hashes : List Nat)
    (h : self.compute data = some hashes) :
    ∃ dp, self.apply_permutation data self.sigma = some dp ∧
      computeGo self dp 0 self.k = some hashes := by
  unfold CMinHash.compute at h
  cases hdp : self.apply_permutation data self.sigma with
  | none => rw [hdp] at h; cases h
  | some dp => rw [hdp] at h; exact ⟨dp, rfl, h⟩

theorem compute_total (self : CMinHash) (data : List Bool)
    (hsigma : self.sigma.length ≤ data.length)
    (hpi : data.length ≤ self.pi.length) :
    ∃ hashes, self.compute data = some hashes ∧ hashes.length = self.k := by
  obtain ⟨dp, hdp⟩ := apply_permutation_total self data self.sigma hsigma
  have hdplen : dp.length = data.length := apply_permutation_length self data self.sigma dp hdp
  obtain ⟨hs, hgo, hlen, _⟩ := computeGo_total self dp
    (fun j => computeSlot_total self dp (by omega) j) self.k 0
  refine ⟨hs, ?_, hlen⟩
  unfold CMinHash.compute
  rw [hdp]
  exact hgo

/-! ### Lemmas about the StreamingMinHash model -/

theorem le_u64MAX_of_lt_U64 {m : Nat} (h : m < U64) : m ≤ u64MAX := by
  unfold U64 at h
  unfold u64MAX
  omega

theorem update_length (hash : Nat → Nat) (signature : List Nat) (item : Nat) :
    (StreamingMinHash.update hash signature item).length = signature.length := by
  unfold StreamingMinHash.update
  rw [List.length_map, List.length_range]

theorem update_getD (hash : Nat → Nat) (signature : List Nat) (item : Nat)
    (i : Nat) (h : i < signature.length) :
    (StreamingMinHash.update hash signature item).getD i 0 =
      min (signature.getD i 0) ((hash item + i) % U64) := by
  unfold StreamingMinHash.update
  rw [List.getD_eq_getElem?_getD, List.getElem?_map, List.getElem?_range h]
  rfl

theorem foldl_update_length (hash : Nat → Nat) :
    ∀ (items : List Nat) (signature : List Nat),
      (items.foldl (StreamingMinHash.update hash) signature).length =
        signature.length := by
  intro items
  induction items with
  | nil => intro signature; rfl
  | cons item rest ih =>
    intro signature
    simp only [List.foldl_cons]
    rw [ih, update_length]

theorem foldl_update_getD (hash : Nat → Nat) :
    ∀ (items : List Nat) (signature : List Nat) (i : Nat),
      i < signature.length →
      (items.foldl (StreamingMinHash.update hash) signature).getD i 0 =
        items.foldl (fun acc it => min acc ((hash it + i) % U64))
          (signature.getD i 0) := by
  intro items
  induction items with
  | nil => intro signature i _; rfl
  | cons item rest ih =>
    intro signature i hi
    simp only [List.foldl_cons]
    rw [ih (StreamingMinHash.update hash signature item) i
      (by rw [update_length]; exact hi)]
    rw [update_getD hash signature item i hi]

theorem minOpt_cons_foldl :
    ∀ (l : List Nat) (init : Nat),
      minOpt (init :: l) = some (List.foldl (fun a v => min a v) init l) := by
  intro l
  induction l with
  | nil => intro init; rfl
  | cons v rest ih =>
    intro init
    have h1 := ih (min init v)
    simp only [List.foldl_cons]
    simp only [minOpt] at h1 ⊢
    cases hrest : minOpt rest with
    | none =>
      rw [hrest] at h1
      rw [← Option.some.inj h1]
    | some m =>
      rw [hrest] at h1
      rw [← Option.some.inj h1]
      exact congrArg some (show min init (min v m) = min (min init v) m by omega)

theorem run_length (hash : Nat → Nat) (numPerm : Nat) (items : List Nat) :
    (StreamingMinHash.run hash numPerm items).length = numPerm := by
  unfold StreamingMinHash.run
  rw [foldl_update_length]
  unfold StreamingMinHash.new
  exact List.length_replicate _ _

theorem run_getD (hash : Nat → Nat) (numPerm : Nat) (items : List Nat)
    (i : Nat) (h : i < numPerm) :
    (StreamingMinHash.run hash numPerm items).getD i 0 =
      items.foldl (fun acc it => min acc ((hash it + i) % U64)) u64MAX := by
  unfold StreamingMinHash.run
  rw [foldl_update_getD hash items (StreamingMinHash.new numPerm) i
    (by unfold StreamingMinHash.new; simpa using h)]
  congr 1
  unfold StreamingMinHash.new
  rw [List.getD_eq_getElem?_getD, List.getElem?_replicate, if_pos h]
  rfl

theorem run_getD_minOpt (hash : Nat → Nat) (numPerm : Nat) (items : List Nat)
    (i : Nat) (h : i < numPerm) :
    some ((StreamingMinHash.run hash numPerm items).getD i 0) =
      minOpt (u64MAX :: items.map (fun it => (hash it + i) % U64)) := by
  rw [run_getD hash numPerm items i h, minOpt_cons_foldl, List.foldl_map]

theorem run_perm (hash : Nat → Nat) (numPerm : Nat) (items1 items2 : List Nat)
    (hp : items1.Perm items2) :
    StreamingMinHash.run hash numPerm items1 =
      StreamingMinHash.run hash numPerm items2 := by
  apply List.ext_get
  · rw [run_length, run_length]
  · intro j hj1 hj2
    have hj : j < numPerm := by rwa [run_length] at hj1
    have e1 := run_getD_minOpt hash numPerm items1 j hj
    have e2 := run_getD_minOpt hash numPerm items2 j hj
    have hpm : (u64MAX :: items1.map (fun it => (hash it + j) % U64)).Perm
        (u64MAX :: items2.map (fun it => (hash it + j) % U64)) :=
      List.Perm.cons u64MAX (hp.map _)
    rw [minOpt_perm _ _ hpm] at e1
    have hgd := Option.some.inj (e1.trans e2.symm)
    rw [List.get_eq_getElem, List.get_eq_getElem,
      ← List.getD_eq_getElem _ 0 hj1, ← List.getD_eq_getElem _ 0 hj2]
    exact hgd

/-! ### Helpers for the lossless-scatter property -/

theorem perm_range_of_nodup (sigma : List Nat) (n : Nat) (hnd : sigma.Nodup)
    (hlen : sigma.length = n) (hb : ∀ x ∈ sigma, x < n) :
    sigma.Perm (List.range n) := by
  have hsub : sigma ⊆ List.range n := fun x hx => List.mem_range.mpr (hb x hx)
  exact (List.subperm_of_subset hnd hsub).perm_of_length_le
    (by rw [List.length_range, hlen])

theorem map_getD_range (l : List Bool) :
    (List.range l.length).map (fun j => l.getD j false) = l := by
  apply List.ext_get
  · rw [List.length_map, List.length_range]
  · intro j h1 h2
    simp only [List.get_eq_getElem, List.getElem_map, List.getElem_range]
    exact List.getD_eq_getElem l false h2

/-! ### Claim theorems -/

/-- C1 (counterexample): the totality claim fails on the code as stated.  With
`sigma = [0]`, `pi = []`, `k = 1`, `data = [true]` (a `pi` shorter than
`data`), `compute` reaches the out-of-bounds read `pi_shifted[0]` and panics
(modelled `none`); with `permutation = [0, 0]` (longer than `data = [true]`)
`apply_permutation` reaches the out-of-bounds read `data[1]` and panics. -/
theorem C1_counterexample :
    (CMinHash.new [0] [] 1).compute [true] = none ∧
    (CMinHash.new [0] [] 1).apply_permutation [true] [0, 0] = none := by
  exact ⟨rfl, rfl⟩

/-- C1 (amended): `apply_permutation` terminates normally (every indexing
operation in bounds) whenever the permutation is no longer than `data`, and
`compute` terminates normally whenever `sigma` is no longer than `data` and
`data` is no longer than `pi`; permutation values outside `[0, len(data))` are
still tolerated.  Outside these length bounds an out-of-bounds index (a Rust
panic) is reachable, as the counterexample shows. -/
theorem C1_totality (sigma pi : List Nat) (k : Nat) (data : List Bool)
    (permutation : List Nat) :
    (permutation.length ≤ data.length →
      ∃ r, (CMinHash.new sigma pi k).apply_permutation data permutation = some r) ∧
    (sigma.length ≤ data.length → data.length ≤ pi.length →
      ∃ hashes, (CMinHash.new sigma pi k).compute data = some hashes) := by
  constructor
  · intro h
    exact apply_permutation_total _ data permutation h
  · intro h1 h2
    obtain ⟨hs, hh, _⟩ := compute_total (CMinHash.new sigma pi k) data h1 h2
    exact ⟨hs, hh⟩

theorem C1_witness :
    (∃ r, (CMinHash.new [1, 0] [5, 7] 2).apply_permutation [true, false] [0, 1] =
      some r) ∧
    (∃ hashes, (CMinHash.new [1, 0] [5, 7] 2).compute [true, false] =
      some hashes) :=
  ⟨(C1_totality [1, 0] [5, 7] 2 [true, false] [0, 1]).1 (by decide),
    (C1_totality [1, 0] [5, 7] 2 [true, false] [0, 1]).2 (by decide) (by decide)⟩

/-- C2: the concrete full-compute scenario of the spec and of
`test_compute_basic`: `sigma = [0,2,1]`, `pi = [1,0,2]`, `k = 3`,
`data = [true,false,true]` gives the signature `[0, 1, 0]`. -/
theorem C2_compute_basic :
    (CMinHash.new [0, 2, 1] [1, 0, 2] 3).compute [true, false, true] =
      some [0, 1, 0] := by
  decide

/-- C3 (counterexample): the claim's per-index postcondition
`result[sigma[i]] = data[i]` fails for a duplicated target position: with
`sigma = [0, 0]` and `data = [true, false]` we have `sigma[0] = 0 < 2` and
`data[0] = true`, yet the later write of `data[1] = false` to position `0`
wins, so the result holds `false` at position `0`. -/
theorem C3_counterexample :
    ([0, 0] : List Nat)[0]? = some 0 ∧
    (0 : Nat) < ([true, false] : List Bool).length ∧
    ([true, false] : List Bool)[0]? = some true ∧
    ((CMinHash.new [0, 0] [] 0).apply_permutation [true, false] [0, 0]).bind
      (fun r => r[0]?) = some false := by
  decide

/-- C3 (amended): for a permutation no longer than `data` and with pairwise
distinct entries, `apply_permutation` returns normally a vector of `data`'s
length; every in-range target `sigma[i] < len(data)` holds `data[i]`, targets
`sigma[i] >= len(data)` are skipped silently, and every position hit by no
in-range target stays `false`. -/
theorem C3_scatter (c : CMinHash) (sigma : List Nat) (data : List Bool)
    (hlen : sigma.length ≤ data.length) (hnd : sigma.Nodup) :
    ∃ r, c.apply_permutation data sigma = some r ∧
      r.length = data.length ∧
      (∀ i (h : i < sigma.length), sigma.get ⟨i, h⟩ < data.length →
        r[sigma.get ⟨i, h⟩]? = data[i]?) ∧
      (∀ p, p < data.length →
        (∀ i (h : i < sigma.length), sigma.get ⟨i, h⟩ ≠ p) →
        r[p]? = some false) := by
  obtain ⟨r, hr⟩ := apply_permutation_total c data sigma hlen
  refine ⟨r, hr, apply_permutation_length c data sigma r hr, ?_, ?_⟩
  · intro i h hlt
    exact apply_permutation_getElem?_write c data sigma r hr i h hlt hnd
  · intro p hp hne
    exact apply_permutation_getElem?_untouched c data sigma r p hr hp hne

theorem C3_witness :
    ([2, 0, 1] : List Nat).length ≤ ([true, false, true] : List Bool).length ∧
    ([2, 0, 1] : List Nat).Nodup ∧
    (∃ r, (CMinHash.new [2, 0, 1] [] 0).apply_permutation [true, false, true]
        [2, 0, 1] = some r ∧
      r.length = ([true, false, true] : List Bool).length ∧
      (∀ i (h : i < ([2, 0, 1] : List Nat).length),
        ([2, 0, 1] : List Nat).get ⟨i, h⟩ < ([true, false, true] : List Bool).length →
        r[([2, 0, 1] : List Nat).get ⟨i, h⟩]? = ([true, false, true] : List Bool)[i]?) ∧
      (∀ p, p < ([true, false, true] : List Bool).length →
        (∀ i (h : i < ([2, 0, 1] : List Nat).length),
          ([2, 0, 1] : List Nat).get ⟨i, h⟩ ≠ p) →
        r[p]? = some false)) ∧
    (CMinHash.new [2, 0, 1] [] 0).apply_permutation [true, false, true] [2, 0, 1] =
      some [false, true, true] :=
  ⟨by decide, by decide,
    C3_scatter (CMinHash.new [2, 0, 1] [] 0) [2, 0, 1] [true, false, true]
      (by decide) (by decide),
    by decide⟩

/-- C4 (counterexample): with the `usize` wrap of `i + shift` modelled, the
claim's position equation fails for "every shift amount": at `pi = [1, 2, 0]`
and `shift = usize::MAX` (a single feasible call) the release-build result is
`[2, 0, 0]` — the additions for source indices `0` and `1` wrap at `2 ^ 64` and
collide on position `0`, and position `2` is never written — so position
`(1 + shift) mod 3 = 1` holds `0`, not `pi[1] = 2` (a debug build panics on the
overflow instead of returning at all). -/
theorem C4_counterexample :
    (CMinHash.new [] [1, 2, 0] 0).circulant_shift_wrap usizeMAX = [2, 0, 0] ∧
    ((CMinHash.new [] [1, 2, 0] 0).circulant_shift_wrap
        usizeMAX)[(1 + usizeMAX) % (CMinHash.new [] [1, 2, 0] 0).pi.length]? =
      some 0 ∧
    ([1, 2, 0] : List Nat)[1]? = some 2 := by
  decide

/-- C4 (amended): for a non-empty `pi` and every shift amount `s` small enough
that no `usize` addition `i + s` wraps (`s + len(pi) ≤ 2 ^ 64`), the
wrap-faithful `circulant_shift` coincides with the unwrapped model, returns a
sequence of length `d = len(pi)`, and for each source index `i` position
`(i + s) mod d` holds `pi[i]`; in particular `pi = [1,2,0]` shifted by `1`
gives `[0, 1, 2]` (checked in the witness).  For larger shifts the wrapping sum
lands `pi[i]` at `((i + s) mod 2^64) mod d` instead, which falsifies the
original position equation, as the counterexample shows. -/
theorem C4_circulant_shift_spec (c : CMinHash) (s : Nat) (hd : 0 < c.pi.length)
    (hnw : s + c.pi.length ≤ U64) :
    c.circulant_shift_wrap s = c.circulant_shift s ∧
    (c.circulant_shift_wrap s).length = c.pi.length ∧
    ∀ i, i < c.pi.length →
      (c.circulant_shift_wrap s)[(i + s) % c.pi.length]? = c.pi[i]? := by
  have heq := circulant_shift_wrap_eq_of_no_wrap c s hnw
  refine ⟨heq, ?_, ?_⟩
  · rw [heq]
    exact circulant_shift_length c s
  · intro i h
    rw [heq]
    exact circulant_shift_getElem?_spec c s i h

theorem C4_witness :
    0 < (CMinHash.new [] [1, 2, 0] 0).pi.length ∧
    1 + (CMinHash.new [] [1, 2, 0] 0).pi.length ≤ U64 ∧
    ((CMinHash.new [] [1, 2, 0] 0).circulant_shift_wrap 1 =
        (CMinHash.new [] [1, 2, 0] 0).circulant_shift 1 ∧
      ((CMinHash.new [] [1, 2, 0] 0).circulant_shift_wrap 1).length =
        (CMinHash.new [] [1, 2, 0] 0).pi.length ∧
      ∀ i, i < (CMinHash.new [] [1, 2, 0] 0).pi.length →
        ((CMinHash.new [] [1, 2, 0] 0).circulant_shift_wrap 1)[(i + 1) %
            (CMinHash.new [] [1, 2, 0] 0).pi.length]? =
          (CMinHash.new [] [1, 2, 0] 0).pi[i]?) ∧
    (CMinHash.new [] [1, 2, 0] 0).circulant_shift_wrap 1 = [0, 1, 2] :=
  ⟨by decide, by decide,
    C4_circulant_shift_spec (CMinHash.new [] [1, 2, 0] 0) 1 (by decide)
      (by decide),
    by decide⟩

theorem new_pi (sigma pi : List Nat) (k : Nat) :
    (CMinHash.new sigma pi k).pi = pi := rfl

/-- C5: in the spec-modelled StreamingMinHash, after any finite non-empty
sequence of updates, `signature[i]` is exactly the minimum over all updated
items of `(H(item) + i) mod 2^64`; and the final signature is invariant under
reordering of the update sequence (which covers `[x, y]` versus `[y, x]`). -/
theorem C5_streaming_minhash (hash : Nat → Nat) (numPerm : Nat)
    (items : List Nat) (i : Nat) (hi : i < numPerm) :
    (items ≠ [] →
      ∃ m, minOpt (items.map (fun it => (hash it + i) % U64)) = some m ∧
        (StreamingMinHash.run hash numPerm items)[i]? = some m) ∧
    (∀ items2, items.Perm items2 →
      StreamingMinHash.run hash numPerm items =
        StreamingMinHash.run hash numPerm items2) := by
  constructor
  · intro hne
    have hmapne : items.map (fun it => (hash it + i) % U64) ≠ [] := by
      intro hnil
      exact hne (List.map_eq_nil_iff.mp hnil)
    obtain ⟨m, hm⟩ := minOpt_isSome _ hmapne
    refine ⟨m, hm, ?_⟩
    have hle : m ≤ u64MAX := by
      obtain ⟨it, _, hit⟩ := List.mem_map.mp (minOpt_mem _ m hm)
      have hlt : (hash it + i) % U64 < U64 :=
        Nat.mod_lt _ (by unfold U64; positivity)
      rw [hit] at hlt
      exact le_u64MAX_of_lt_U64 hlt
    have hcons : minOpt (u64MAX :: items.map (fun it => (hash it + i) % U64)) =
        some m := by
      simp only [minOpt]
      rw [hm]
      exact congrArg some (by omega)
    have hrun := run_getD_minOpt hash numPerm items i hi
    rw [hcons] at hrun
    have hgd : (StreamingMinHash.run hash numPerm items).getD i 0 = m :=
      Option.some.inj hrun
    have hlen : i < (StreamingMinHash.run hash numPerm items).length := by
      rw [run_length]; exact hi
    rw [List.getElem?_eq_getElem hlen, ← List.getD_eq_getElem _ 0 hlen, hgd]
  · intro items2 hp
    exact run_perm hash numPerm items items2 hp

theorem C5_witness :
    (0 : Nat) < 2 ∧
    ((([3, 5] : List Nat) ≠ [] →
      ∃ m, minOpt ([3, 5].map (fun it => ((fun n => n) it + 0) % U64)) = some m ∧
        (StreamingMinHash.run (fun n => n) 2 [3, 5])[0]? = some m) ∧
    (∀ items2, ([3, 5] : List Nat).Perm items2 →
      StreamingMinHash.run (fun n => n) 2 [3, 5] =
        StreamingMinHash.run (fun n => n) 2 items2)) :=
  ⟨by decide, C5_streaming_minhash (fun n => n) 2 [3, 5] 0 (by decide)⟩

/-- C6: for every shift `s` in `[0, len(pi))`: the circulant shift is a
permutation (rearrangement) of `pi`'s values; shift `0` returns `pi`
unchanged; and shifting the result by `(len(pi) - s) mod len(pi)` returns the
original `pi`. -/
theorem C6_circulant_shift_algebra (c : CMinHash) (s : Nat)
    (hs : s < c.pi.length) :
    (c.circulant_shift s).Perm c.pi ∧
    c.circulant_shift 0 = c.pi ∧
    (CMinHash.new c.sigma (c.circulant_shift s) c.k).circulant_shift
      ((c.pi.length - s) % c.pi.length) = c.pi := by
  have hd : 0 < c.pi.length := by omega
  refine ⟨circulant_shift_perm c s, circulant_shift_zero c, ?_⟩
  have hsmod : s % c.pi.length = s := Nat.mod_eq_of_lt hs
  have h1 : c.circulant_shift s =
      c.pi.rotate ((c.pi.length - s) % c.pi.length) := by
    rw [circulant_shift_eq_rotate, hsmod]
  have htlt : (c.pi.length - s) % c.pi.length < c.pi.length := Nat.mod_lt _ hd
  have h2 := circulant_shift_eq_rotate
    (CMinHash.new c.sigma (c.circulant_shift s) c.k)
    ((c.pi.length - s) % c.pi.length)
  rw [new_pi, circulant_shift_length, Nat.mod_eq_of_lt htlt] at h2
  rw [h2, h1, List.rotate_rotate]
  rcases Nat.eq_zero_or_pos s with hs0 | hspos
  · subst hs0
    have ht0 : (c.pi.length - 0) % c.pi.length = 0 := by
      rw [Nat.sub_zero, Nat.mod_self]
    rw [ht0, Nat.sub_zero, Nat.mod_self, Nat.add_zero, List.rotate_zero]
  · have ht : (c.pi.length - s) % c.pi.length = c.pi.length - s :=
      Nat.mod_eq_of_lt (by omega)
    rw [ht, show c.pi.length - (c.pi.length - s) = s by omega,
      Nat.mod_eq_of_lt hs, show c.pi.length - s + s = c.pi.length by omega]
    exact List.rotate_length c.pi

theorem C6_witness :
    (1 : Nat) < (CMinHash.new [] [1, 2, 0] 0).pi.length ∧
    (((CMinHash.new [] [1, 2, 0] 0).circulant_shift 1).Perm
        (CMinHash.new [] [1, 2, 0] 0).pi ∧
      (CMinHash.new [] [1, 2, 0] 0).circulant_shift 0 =
        (CMinHash.new [] [1, 2, 0] 0).pi ∧
      (CMinHash.new []
          ((CMinHash.new [] [1, 2, 0] 0).circulant_shift 1) 0).circulant_shift
        (((CMinHash.new [] [1, 2, 0] 0).pi.length - 1) %
          (CMinHash.new [] [1, 2, 0] 0).pi.length) =
        (CMinHash.new [] [1, 2, 0] 0).pi) :=
  ⟨by decide, C6_circulant_shift_algebra (CMinHash.new [] [1, 2, 0] 0) 1 (by decide)⟩

/-- C7: for a non-empty membership vector and a `sigma` of matching length that
is a bijection on `{0, ..., len(data)-1}` (pairwise distinct, all in range),
`apply_permutation` succeeds and its result is a rearrangement of `data`: the
count of `true` entries (indeed the whole multiset of booleans) is
preserved. -/
theorem C7_lossless_scatter (c : CMinHash) (sigma : List Nat) (data : List Bool)
    (hne : data ≠ []) (hlen : sigma.length = data.length) (hnd : sigma.Nodup)
    (hb : ∀ x ∈ sigma, x < data.length) :
    ∃ r, c.apply_permutation data sigma = some r ∧
      r.count true = data.count true ∧ r.Perm data := by
  obtain ⟨r, hr⟩ := apply_permutation_total c data sigma (le_of_eq hlen)
  have hrl : r.length = data.length := apply_permutation_length c data sigma r hr
  have hA : sigma.map (fun j => r.getD j false) = data := by
    apply List.ext_get
    · rw [List.length_map, hlen]
    · intro i h1 h2
      rw [List.length_map] at h1
      have hmem : sigma.get ⟨i, h1⟩ ∈ sigma := List.get_mem sigma i h1
      have hw := apply_permutation_getElem?_write c data sigma r hr i h1
        (hb _ hmem) hnd
      have hi2 : i < data.length := by omega
      have hσ : sigma.get ⟨i, h1⟩ < r.length := by
        rw [hrl]; exact hb _ hmem
      simp only [List.get_eq_getElem, List.getElem_map] at hσ hw ⊢
      rw [List.getElem?_eq_getElem hσ, List.getElem?_eq_getElem hi2] at hw
      rw [List.getD_eq_getElem r false hσ]
      exact Option.some.inj hw
  have hperm_range : sigma.Perm (List.range data.length) :=
    perm_range_of_nodup sigma data.length hnd hlen hb
  have hB : (List.range data.length).map (fun j => r.getD j false) = r := by
    rw [← hrl]
    exact map_getD_range r
  have hmap : (sigma.map (fun j => r.getD j false)).Perm
      ((List.range data.length).map (fun j => r.getD j false)) :=
    hperm_range.map _
  rw [hA, hB] at hmap
  exact ⟨r, hr, hmap.symm.count_eq true, hmap.symm⟩

theorem C7_witness :
    ([true, false, true] : List Bool) ≠ [] ∧
    ([2, 0, 1] : List Nat).length = ([true, false, true] : List Bool).length ∧
    ([2, 0, 1] : List Nat).Nodup ∧
    (∀ x ∈ ([2, 0, 1] : List Nat), x < ([true, false, true] : List Bool).length) ∧
    (∃ r, (CMinHash.new [2, 0, 1] [] 0).apply_permutation [true, false, true]
        [2, 0, 1] = some r ∧
      r.count true = ([true, false, true] : List Bool).count true ∧
      r.Perm [true, false, true]) :=
  ⟨by decide, by decide, by decide, by decide,
    C7_lossless_scatter (CMinHash.new [2, 0, 1] [] 0) [2, 0, 1]
      [true, false, true] (by decide) (by decide) (by decide) (by decide)⟩

/-- C8 (counterexample): the claim fails as stated over all inputs: with
`sigma = [0, 1]`, `pi = [5]`, `k = 2`, `data = [true, true]` (a `pi` shorter
than `data`), `compute` panics on the out-of-bounds read `pi_shifted[1]`
(modelled `none`), so it does not return a sequence of `k = 2` hash values. -/
theorem C8_counterexample :
    (CMinHash.new [0, 1] [5] 2).compute [true, true] = none := by
  decide

/-- C8 (amended): whenever `sigma` is no longer than `data` and `data` no
longer than `pi` (so that no indexing panics), `compute` returns exactly `k`
hash values; each slot value is the minimum of the shifted-`pi` values over the
positions where the permuted membership vector is `true`, and is the maximum
representable unsigned integer when no position is `true`. -/
theorem C8_signature_slots (c : CMinHash) (data : List Bool)
    (hsigma : c.sigma.length ≤ data.length) (hpi : data.length ≤ c.pi.length) :
    ∃ dp hashes, c.apply_permutation data c.sigma = some dp ∧
      c.compute data = some hashes ∧ hashes.length = c.k ∧
      ∀ kIndex, kIndex < c.k → ∀ m, hashes[kIndex]? = some m →
        ((∃ j, ∃ hj : j < dp.length, dp.get ⟨j, hj⟩ = true) →
          (∃ j, ∃ hj : j < dp.length, dp.get ⟨j, hj⟩ = true ∧
            (c.circulant_shift kIndex)[j]? = some m) ∧
          (∀ j (hj : j < dp.length) (v : Nat), dp.get ⟨j, hj⟩ = true →
            (c.circulant_shift kIndex)[j]? = some v → m ≤ v)) ∧
        ((∀ j (hj : j < dp.length), dp.get ⟨j, hj⟩ = false) → m = usizeMAX) := by
  obtain ⟨dp, hdp⟩ := apply_permutation_total c data c.sigma hsigma
  have hdpl : dp.length = data.length :=
    apply_permutation_length c data c.sigma dp hdp
  have hslot_tot : ∀ j, ∃ v, computeSlot c dp j = some v :=
    fun j => computeSlot_total c dp (by omega) j
  obtain ⟨hs, hgo, hlen, hget⟩ := computeGo_total c dp hslot_tot c.k 0
  have hcomp : c.compute data = some hs := by
    unfold CMinHash.compute
    rw [hdp]
    exact hgo
  refine ⟨dp, hs, hdp, hcomp, hlen, ?_⟩
  intro kIndex hk m hm
  have hslot : computeSlot c dp kIndex = some m := by
    have hh := hget kIndex hk
    rw [hm, Nat.zero_add] at hh
    exact hh.symm
  obtain ⟨vals, hvals, hmeq⟩ := computeSlot_inv c dp kIndex m hslot
  constructor
  · rintro ⟨j, hj, htrue⟩
    obtain ⟨v0, _, hv0mem⟩ :=
      slotValuesGo_complete _ dp 0 vals hvals j hj htrue
    have hvne : vals ≠ [] := by
      intro hnil
      rw [hnil] at hv0mem
      exact absurd hv0mem (by simp)
    obtain ⟨m0, hm0⟩ := minOpt_isSome vals hvne
    have hm_eq : m = m0 := by rw [hmeq, hm0]; rfl
    constructor
    · obtain ⟨j1, hj1, htrue1, hget1⟩ :=
        slotValuesGo_mem _ dp 0 vals hvals m0 (minOpt_mem vals m0 hm0)
      refine ⟨j1, hj1, htrue1, ?_⟩
      rw [hm_eq]
      simpa using hget1
    · intro j2 hj2 v htrue2 hgetv
      obtain ⟨v', hv'get, hv'mem⟩ :=
        slotValuesGo_complete _ dp 0 vals hvals j2 hj2 htrue2
      rw [Nat.zero_add, hgetv] at hv'get
      have hvv : v = v' := Option.some.inj hv'get
      rw [hm_eq, hvv]
      exact minOpt_le vals m0 hm0 v' hv'mem
  · intro hfalse
    have hnil : vals = [] :=
      slotValuesGo_nil_of_all_false _ dp 0 vals hvals hfalse
    rw [hmeq, hnil]
    rfl

theorem C8_witness :
    (CMinHash.new [0, 2, 1] [1, 0, 2] 3).sigma.length ≤
      ([true, false, true] : List Bool).length ∧
    ([true, false, true] : List Bool).length ≤
      (CMinHash.new [0, 2, 1] [1, 0, 2] 3).pi.length ∧
    (∃ dp hashes,
      (CMinHash.new [0, 2, 1] [1, 0, 2] 3).apply_permutation [true, false, true]
        (CMinHash.new [0, 2, 1] [1, 0, 2] 3).sigma = some dp ∧
      (CMinHash.new [0, 2, 1] [1, 0, 2] 3).compute [true, false, true] =
        some hashes ∧
      hashes.length = (CMinHash.new [0, 2, 1] [1, 0, 2] 3).k ∧
      ∀ kIndex, kIndex < (CMinHash.new [0, 2, 1] [1, 0, 2] 3).k →
        ∀ m, hashes[kIndex]? = some m →
        ((∃ j, ∃ hj : j < dp.length, dp.get ⟨j, hj⟩ = true) →
          (∃ j, ∃ hj : j < dp.length, dp.get ⟨j, hj⟩ = true ∧
            ((CMinHash.new [0, 2, 1] [1, 0, 2] 3).circulant_shift kIndex)[j]? =
              some m) ∧
          (∀ j (hj : j < dp.length) (v : Nat), dp.get ⟨j, hj⟩ = true →
            ((CMinHash.new [0, 2, 1] [1, 0, 2] 3).circulant_shift kIndex)[j]? =
              some v → m ≤ v)) ∧
        ((∀ j (hj : j < dp.length), dp.get ⟨j, hj⟩ = false) → m = usizeMAX)) :=
  ⟨by decide, by decide,
    C8_signature_slots (CMinHash.new [0, 2, 1] [1, 0, 2] 3) [true, false, true]
      (by decide) (by decide)⟩

/-- C9: `compute` is deterministic: two calls with the same `sigma`, `pi`, `k`
and equal membership vectors return equal signatures (two-run equality of the
embedded pure function). -/
theorem C9_compute_deterministic (sigma pi : List Nat) (k : Nat)
    (data1 data2 : List Bool) (h : data1 = data2) :
    (CMinHash.new sigma pi k).compute data1 =
      (CMinHash.new sigma pi k).compute data2 := by
  rw [h]

theorem C9_witness :
    ([true, false, true] : List Bool) = [true, false, true] ∧
    (CMinHash.new [0, 2, 1] [1, 0, 2] 3).compute [true, false, true] =
      (CMinHash.new [0, 2, 1] [1, 0, 2] 3).compute [true, false, true] :=
  ⟨rfl, C9_compute_deterministic [0, 2, 1] [1, 0, 2] 3 [true, false, true]
    [true, false, true] rfl⟩

/-- C10: whenever `compute` returns normally, every entry of the signature is
either `usize::MAX` (the empty-slot sentinel) or one of the values occurring in
`pi`: the circulant shift only rearranges `pi`'s values and each slot takes
either the sentinel or a minimum among them. -/
theorem C10_signature_range (c : CMinHash) (data : List Bool)
    (hashes : List Nat) (h : c.compute data = some hashes) :
    ∀ v ∈ hashes, v = usizeMAX ∨ v ∈ c.pi := by
  obtain ⟨dp, _, hgo⟩ := compute_inv c data hashes h
  intro v hv
  obtain ⟨j, hslot⟩ := computeGo_mem c dp c.k 0 hashes hgo v hv
  obtain ⟨vals, hvals, hveq⟩ := computeSlot_inv c dp j v hslot
  cases hmin : minOpt vals with
  | none =>
    left
    rw [hveq, hmin]
    rfl
  | some m =>
    right
    have hvm : v = m := by rw [hveq, hmin]; rfl
    obtain ⟨j1, hj1, _, hget1⟩ :=
      slotValuesGo_mem _ dp 0 vals hvals m (minOpt_mem vals m hmin)
    have hmem : m ∈ c.circulant_shift j := List.getElem?_mem hget1
    rw [hvm]
    exact (circulant_shift_perm c j).mem_iff.mp hmem

theorem C10_witness :
    (CMinHash.new [0, 2, 1] [1, 0, 2] 3).compute [true, false, true] =
      some [0, 1, 0] ∧
    ∀ v ∈ ([0, 1, 0] : List Nat),
      v = usizeMAX ∨ v ∈ (CMinHash.new [0, 2, 1] [1, 0, 2] 3).pi :=
  ⟨by decide,
    C10_signature_range (CMinHash.new [0, 2, 1] [1, 0, 2] 3) [true, false, true]
      [0, 1, 0] (by decide)⟩
